import Mathlib

/-!
Shallow embedding of the `iter` Go library (github.com/zkksch/iter).

The library represents an iterator as a stateful pull function
`type Iterator[T any] func() (T, error)`; a pull returns the next value or
an error, where the sentinel `ErrStopIt` signals normal exhaustion.  We
model a closure's captured mutable state explicitly: an iterator is a step
function `σ → σ × Except GoErr T` together with a current state.  Go's
`error` results are modelled by `GoErr`: `stopIt` is the `ErrStopIt`
sentinel and `cause c` stands for any other (distinguishable) error value.
-/

namespace Iter

/-- Go error values as the library observes them: `errors.Is(err, ErrStopIt)`
either holds (`stopIt`) or the error is some other cause (`cause c`). -/
inductive GoErr : Type where
  | stopIt : GoErr
  | cause : Nat → GoErr
deriving DecidableEq, Repr

instance instDecEqExcept {ε α : Type} [DecidableEq ε] [DecidableEq α] :
    DecidableEq (Except ε α) := fun a b =>
  match a, b with
  | Except.ok x, Except.ok y =>
    if h : x = y then isTrue (by rw [h]) else isFalse (by simp [h])
  | Except.error x, Except.error y =>
    if h : x = y then isTrue (by rw [h]) else isFalse (by simp [h])
  | Except.ok _, Except.error _ => isFalse (by simp)
  | Except.error _, Except.ok _ => isFalse (by simp)

/-- A Go iterator closure: explicit state plus the pull function's result. -/
abbrev Step (σ : Type) (T : Type) := σ → σ × Except GoErr T

/-- The state of an iterator after `n` pulls starting from `s`. -/
def states {σ T : Type} (f : Step σ T) (s : σ) : Nat → σ
  | 0 => s
  | n + 1 => (f (states f s n)).1

/-- The result of the `n`-th pull (0-indexed) starting from state `s`. -/
def outputs {σ T : Type} (f : Step σ T) (s : σ) (n : Nat) : Except GoErr T :=
  (f (states f s n)).2

/-- `FromSlice` (src/iterators.go): the closure captures `cursor`, starting
at 0; a pull past the end returns `ErrStopIt`, otherwise it returns the
element at the cursor and advances it. -/
def fromSliceNext {T : Type} (source : List T) : Step Nat T :=
  fun cursor =>
    if h : source.length ≤ cursor then (cursor, Except.error GoErr.stopIt)
    else (cursor + 1, Except.ok (source.get ⟨cursor, Nat.lt_of_not_le h⟩))

/-- `Map` (src/pipelines.go): pull the source; on error propagate it,
otherwise apply the mapping function (whose result may itself be an
error). The state is the source's state. -/
def mapNext {σ T K : Type} (f : Step σ T) (fn : T → Except GoErr K) : Step σ K :=
  fun s =>
    match f s with
    | (s', Except.ok v) => (s', fn v)
    | (s', Except.error e) => (s', Except.error e)

/-- `Limit` (src/pipelines.go): the closure captures `remain := limit`
(a Go `int`, so possibly negative); when `remain <= 0` return `ErrStopIt`,
otherwise pull the source, decrementing on success and zeroing `remain`
on the source's error. -/
def limitNext {σ T : Type} (f : Step σ T) : Step (σ × Int) T :=
  fun st =>
    if st.2 ≤ 0 then (st, Except.error GoErr.stopIt)
    else
      match f st.1 with
      | (s', Except.ok v) => ((s', st.2 - 1), Except.ok v)
      | (s', Except.error e) => ((s', 0), Except.error e)

/-- `Pairs` (src/pipelines.go): pull the left source first; on its error
return that error without touching the right source; otherwise pull the
right source and on its error return it (the left source has already
advanced); on two successes return the pair. -/
def pairsNext {σ₁ σ₂ T K : Type} (fl : Step σ₁ T) (fr : Step σ₂ K) :
    Step (σ₁ × σ₂) (T × K) :=
  fun st =>
    match fl st.1 with
    | (sl', Except.error e) => ((sl', st.2), Except.error e)
    | (sl', Except.ok lv) =>
      match fr st.2 with
      | (sr', Except.error e) => ((sl', sr'), Except.error e)
      | (sr', Except.ok rv) => ((sl', sr'), Except.ok (lv, rv))

/-- The loop body of `Combine` (src/pipelines.go): pull each source in
order; the first error aborts the round (sources already pulled keep their
advanced state, the rest stay untouched) and is returned; otherwise the
values are collected in source order. -/
def combineLoop {σ T : Type} (fs : List (Step σ T)) (ss : List σ) :
    List σ × Except GoErr (List T) :=
  match fs, ss with
  | f :: fsRest, s :: ssRest =>
    match f s with
    | (s', Except.error e) => (s' :: ssRest, Except.error e)
    | (s', Except.ok v) =>
      match combineLoop fsRest ssRest with
      | (ss', Except.ok vs) => (s' :: ss', Except.ok (v :: vs))
      | (ss', Except.error e) => (s' :: ss', Except.error e)
  | _, _ => (ss, Except.ok [])

/-- `Combine` (src/pipelines.go): with zero sources every pull returns
`ErrStopIt` immediately; otherwise one pull performs one round over all
sources via `combineLoop`. -/
def combineNext {σ T : Type} (fs : List (Step σ T)) : Step (List σ) (List T) :=
  fun ss =>
    if fs.isEmpty then (ss, Except.error GoErr.stopIt)
    else combineLoop fs ss

/-- The driving loop shared by `Reduce`/`ToSlice` (src/finalizers.go):
pull until the first error, collecting the successful values in order;
`none` as the second component means the fuel ran out before the iterator
stopped (the Go loop would still be running). -/
def runCollect {σ T : Type} (f : Step σ T) : Nat → σ → List T × Option GoErr
  | 0, _ => ([], none)
  | fuel + 1, s =>
    match f s with
    | (s', Except.ok v) =>
      let r := runCollect f fuel s'
      (v :: r.1, r.2)
    | (_, Except.error e) => ([], some e)

/-- `ToSlice` (src/finalizers.go): drive the iterator to its stop; if the
stop is `ErrStopIt` return the collected slice with no error, otherwise
return the nil slice (modelled `[]`) together with the error, discarding
what was collected. -/
def toSliceGo {σ T : Type} (f : Step σ T) (fuel : Nat) (s : σ) :
    Option (List T × Option GoErr) :=
  match runCollect f fuel s with
  | (l, some GoErr.stopIt) => some (l, none)
  | (_, some e) => some ([], some e)
  | (_, none) => none

/-- The folding loop of `Reduce` (src/finalizers.go): `acc = fn(v, acc)`
for each pulled value until the first error. -/
def runFold {σ T K : Type} (f : Step σ T) (fn : T → K → K) :
    Nat → σ → K → K × Option GoErr
  | 0, _, acc => (acc, none)
  | fuel + 1, s, acc =>
    match f s with
    | (s', Except.ok v) => runFold f fn fuel s' (fn v acc)
    | (_, Except.error e) => (acc, some e)

/-- `Reduce` (src/finalizers.go): fold until the stop; an `ErrStopIt` stop
returns the accumulator with no error, any other stop returns the zero
value of `K` (modelled `default`) together with the error. -/
def reduceGo {σ T K : Type} [Inhabited K] (f : Step σ T) (fn : T → K → K)
    (fuel : Nat) (s : σ) (init : K) : Option (K × Option GoErr) :=
  match runFold f fn fuel s init with
  | (acc, some GoErr.stopIt) => some (acc, none)
  | (_, some e) => some (default, some e)
  | (_, none) => none

/-- The state of `finalIterator` (src/finalizers.go): the base iterator's
state, the last value (`none` models Go's zero value before any success
or after an error) and the latched stop error. -/
structure FinalState (σ T : Type) where
  base : σ
  last : Option T
  err : Option GoErr
deriving Repr

/-- `finalIterator.Next` (src/finalizers.go): once `err` is non-nil the
state is left untouched and `false` is returned; otherwise the base is
pulled, `last`/`err` are updated from its result, and the returned Bool
says whether the pull succeeded. -/
def finalNext {σ T : Type} (f : Step σ T) (it : FinalState σ T) :
    FinalState σ T × Bool :=
  match it.err with
  | some _ => (it, false)
  | none =>
    match f it.base with
    | (b', Except.ok v) => ({ base := b', last := some v, err := none }, true)
    | (b', Except.error e) => ({ base := b', last := none, err := some e }, false)

/-- `finalIterator.Stop` (src/finalizers.go): the raw latched error. -/
def finalStop {σ T : Type} (it : FinalState σ T) : Option GoErr := it.err

/-- `finalIterator.Err` (src/finalizers.go): `Stop()` collapsed so that
`ErrStopIt` (and the still-active `nil`) become `nil`, while any other
cause is surfaced unchanged. -/
def finalErr {σ T : Type} (it : FinalState σ T) : Option GoErr :=
  match finalStop it with
  | none => none
  | some e => if e = GoErr.stopIt then none else some e

/-- 64-bit two's-complement wraparound of a Go `int`: the representative of
`n` modulo `2^64` lying in `[-2^63, 2^63)`. -/
def wrap64 (n : Int) : Int :=
  (n + 9223372036854775808) % 18446744073709551616 - 9223372036854775808

/-- Largest value of a 64-bit Go `int`. -/
def maxInt : Int := 9223372036854775807

/-- Smallest value of a 64-bit Go `int`. -/
def minInt : Int := -9223372036854775808

/-- `seqIterator.Next` (src/generators.go): `value += step; return value`,
with Go's fixed-width wraparound. -/
def seqNext (step : Int) : Step Int Int :=
  fun value =>
    let v := wrap64 (value + step)
    (v, Except.ok v)

/-- `Sequence` (src/generators.go): the iterator starts from
`value = start - step` (computed with wraparound), so that the first pull
returns `start`. -/
def sequenceInit (start step : Int) : Int := wrap64 (start - step)

/-- The length of the shortest slice in a list of slices (0 when there are
no slices at all). -/
def minLen {T : Type} : List (List T) → Nat
  | [] => 0
  | S :: rest => if rest.isEmpty then S.length else min S.length (minLen rest)

/-!
Concurrency model for `FromSliceSafe` (src/iterators.go).

The closure's only shared state is the atomic cursor.  A pull performs one
atomic fetch-and-add (`c := cursor.Add(1) - 1`, so `c` is the old value);
if the claimed index `c` is out of bounds the pull later performs a second,
separate atomic operation `cursor.Store(l)` before returning `ErrStopIt`.
An execution by any number of racing workers is therefore an arbitrary
interleaving of these atomic events, which we model as a trace: a `pull`
event is the fetch-and-add (delivering `source[c]` when `c < l`), and a
`store` event is the deferred `cursor.Store(l)` of an earlier failed pull
(`pending` counts failed pulls whose store has not yet executed; a `store`
event with nothing pending does not occur in a real schedule and is a
no-op here).  The 64-bit wraparound of the atomic counter is not modelled:
reaching it would need on the order of `2^63` simultaneously in-flight
pulls. -/

/-- Shared state of `FromSliceSafe`: the atomic cursor, plus the number of
failed pulls whose `cursor.Store(l)` has not executed yet. -/
structure SafeState where
  counter : Int
  pending : Nat
deriving DecidableEq, Repr

/-- One atomic event of a `FromSliceSafe` execution. -/
inductive SafeEv : Type where
  | pull : SafeEv
  | store : SafeEv
deriving DecidableEq, Repr

/-- One atomic event of `FromSliceSafe` (src/iterators.go): `pull` is the
fetch-and-add claiming index `c = counter` (a success delivers `source[c]`,
a failure records a pending store); `store` executes one pending
`cursor.Store(l)`. -/
def safeStep {T : Type} [Inhabited T] (source : List T) (s : SafeState) :
    SafeEv → SafeState × Option T
  | SafeEv.pull =>
    let c := s.counter
    if (source.length : Int) ≤ c then
      ({ counter := c + 1, pending := s.pending + 1 }, none)
    else
      ({ counter := c + 1, pending := s.pending }, some (source.getD c.toNat default))
  | SafeEv.store =>
    match s.pending with
    | 0 => (s, none)
    | p + 1 => ({ counter := (source.length : Int), pending := p }, none)

/-- Run a trace of atomic events against `FromSliceSafe`'s shared state,
collecting the successfully delivered values in event order. -/
def safeRun {T : Type} [Inhabited T] (source : List T) :
    List SafeEv → SafeState → SafeState × List T
  | [], s => (s, [])
  | ev :: evs, s =>
    match safeStep source s ev with
    | (s', some v) =>
      let r := safeRun source evs s'
      (r.1, v :: r.2)
    | (s', none) => safeRun source evs s'

/-- The number of `pull` events in a trace. -/
def countPulls (evs : List SafeEv) : Nat := evs.countP (fun ev => ev = SafeEv.pull)

/-- An iterator never revives and never changes its terminal cause: once a
pull from some state returns an error, every later pull returns the same
error. -/
def StickySame {σ T : Type} (f : Step σ T) : Prop :=
  ∀ (s : σ) (n : Nat) (e : GoErr), outputs f s n = Except.error e →
    ∀ m, n ≤ m → outputs f s m = Except.error e

/-! ### Generic lemmas about iterating a step function -/

theorem states_add {σ T : Type} (f : Step σ T) (s : σ) (n : Nat) :
    ∀ k, states f (states f s n) k = states f s (n + k) := by
  intro k
  induction k with
  | zero => rfl
  | succ k ih =>
    show (f (states f (states f s n) k)).1 = _
    rw [ih]
    rfl

theorem outputs_shift {σ T : Type} (f : Step σ T) (s : σ) (n k : Nat) :
    outputs f (states f s n) k = outputs f s (n + k) := by
  unfold outputs
  rw [states_add]

/-! ### C10: ToSlice on failure -/

/-- Claim C10: whenever the iterator stops with a cause other than `ErrStopIt`,
`ToSlice` returns the nil slice together with that error, discarding
every element collected before the failure. -/
theorem toSlice_failure_discards {σ T : Type} (f : Step σ T) (fuel : Nat) (s : σ)
    (vs : List T) (c : Nat) (h : runCollect f fuel s = (vs, some (GoErr.cause c))) :
    toSliceGo f fuel s = some ([], some (GoErr.cause c)) := by
  unfold toSliceGo
  rw [h]

/-- Witness for C10: an iterator over `[1,2,3]` whose mapping fails at the
second element has already collected `[1]`, yet `ToSlice` returns the
empty slice with the error. -/
theorem toSlice_failure_discards_witness :
    runCollect (mapNext (fromSliceNext [1, 2, 3])
        (fun v => if v = 2 then Except.error (GoErr.cause 9) else Except.ok v)) 4 0
      = ([1], some (GoErr.cause 9))
    ∧ toSliceGo (mapNext (fromSliceNext [1, 2, 3])
        (fun v => if v = 2 then Except.error (GoErr.cause 9) else Except.ok v)) 4 0
      = some ([], some (GoErr.cause 9)) :=
  ⟨by decide,
   toSlice_failure_discards _ 4 0 [1] 9 (by decide)⟩

/-! ### C7: Reduce -/

theorem runFold_eq_runCollect {σ T K : Type} (f : Step σ T) (fn : T → K → K) :
    ∀ (fuel : Nat) (s : σ) (acc : K),
      runFold f fn fuel s acc
        = ((runCollect f fuel s).1.foldl (fun a v => fn v a) acc,
           (runCollect f fuel s).2) := by
  intro fuel
  induction fuel with
  | zero => intro s acc; rfl
  | succ fuel ih =>
    intro s acc
    show (match f s with
      | (s', Except.ok v) => runFold f fn fuel s' (fn v acc)
      | (_, Except.error e) => (acc, some e)) = _
    rcases hfs : f s with ⟨s', r⟩
    cases r with
    | ok v =>
      simp only [runCollect, hfs]
      rw [ih]
      rfl
    | error e =>
      simp only [runCollect, hfs]
      rfl

/-- Claim C7: `Reduce` folds every delivered element into the accumulator; a
`ErrStopIt` stop returns the fold of the delivered values over `init`
with no error, while any other stop cause returns the zero value of the
accumulator type together with the error — the partial fold is
discarded. -/
theorem reduce_folds_or_discards {σ T K : Type} [Inhabited K] (f : Step σ T)
    (fn : T → K → K) (fuel : Nat) (s : σ) (init : K) (vs : List T) :
    (runCollect f fuel s = (vs, some GoErr.stopIt) →
      reduceGo f fn fuel s init = some (vs.foldl (fun a v => fn v a) init, none))
    ∧ (∀ c, runCollect f fuel s = (vs, some (GoErr.cause c)) →
      reduceGo f fn fuel s init = some (default, some (GoErr.cause c))) := by
  constructor
  · intro h
    unfold reduceGo
    rw [runFold_eq_runCollect, h]
  · intro c h
    unfold reduceGo
    rw [runFold_eq_runCollect, h]

/-- Witness for C7: summing `[1,2,3]` from 100 gives 106 with no error,
while the same fold over an iterator failing midway returns the zero
value 0 (not the partial fold) with the error. -/
theorem reduce_folds_or_discards_witness :
    (runCollect (fromSliceNext [1, 2, 3]) 4 0 = ([1, 2, 3], some GoErr.stopIt)
      ∧ reduceGo (fromSliceNext [1, 2, 3]) (fun v acc => acc + v) 4 0 (100 : Nat)
          = some (106, none))
    ∧ (runCollect (mapNext (fromSliceNext [1, 2, 3])
          (fun v => if v = 2 then Except.error (GoErr.cause 9) else Except.ok v)) 4 0
        = ([1], some (GoErr.cause 9))
      ∧ reduceGo (mapNext (fromSliceNext [1, 2, 3])
          (fun v => if v = 2 then Except.error (GoErr.cause 9) else Except.ok v))
          (fun v acc => acc + v) 4 0 (100 : Nat)
        = some (0, some (GoErr.cause 9))) :=
  ⟨⟨by decide,
    (reduce_folds_or_discards (fromSliceNext [1, 2, 3])
      (fun v acc => acc + v) 4 0 100 [1, 2, 3]).1 (by decide)⟩,
   ⟨by decide,
    (reduce_folds_or_discards (mapNext (fromSliceNext [1, 2, 3])
        (fun v => if v = 2 then Except.error (GoErr.cause 9) else Except.ok v))
      (fun v acc => acc + v) 4 0 100 [1]).2 9 (by decide)⟩⟩

/-! ### C9: the for-loop adapter -/

/-- Claim C9: `Stop()` exposes the raw latched stop signal (`nil` while active);
`Err()` is `nil` exactly when the adapter is still active or stopped with
`ErrStopIt`, and returns the cause itself for any other stop; a pull
while active latches the base iterator's stop signal verbatim. -/
theorem final_adapter_stop_err {σ T : Type} (it : FinalState σ T) :
    (finalStop it = it.err)
    ∧ (finalErr it = none ↔ it.err = none ∨ it.err = some GoErr.stopIt)
    ∧ (∀ e, it.err = some e → e ≠ GoErr.stopIt → finalErr it = some e)
    ∧ (∀ (f : Step σ T) (b' : σ) (e : GoErr), it.err = none →
        f it.base = (b', Except.error e) →
        (finalNext f it).1.err = some e ∧ (finalNext f it).2 = false)
    ∧ (∀ (f : Step σ T) (b' : σ) (v : T), it.err = none →
        f it.base = (b', Except.ok v) →
        (finalNext f it).1.err = none ∧ (finalNext f it).2 = true) := by
  refine ⟨rfl, ?_, ?_, ?_, ?_⟩
  · unfold finalErr finalStop
    rcases h : it.err with _ | e
    · simp
    · simp only [Option.some.injEq]
      constructor
      · intro he
        rcases e with _ | c
        · right; rfl
        · simp at he
      · rintro (he | he)
        · exact absurd he (by simp)
        · rw [show e = GoErr.stopIt from Option.some.injEq .. ▸ he]
          simp
  · intro e he hne
    unfold finalErr finalStop
    rw [he]
    simp [hne]
  · intro f b' e hact hbase
    unfold finalNext
    rw [hact, hbase]
    exact ⟨rfl, rfl⟩
  · intro f b' v hact hbase
    unfold finalNext
    rw [hact, hbase]
    exact ⟨rfl, rfl⟩

/-- Witness for C9 at concrete states: active, stopped normally, and
stopped with a cause. -/
theorem final_adapter_stop_err_witness :
    (finalErr (⟨0, none, some (GoErr.cause 5)⟩ : FinalState Nat Nat)
      = some (GoErr.cause 5))
    ∧ (finalErr (⟨0, none, some GoErr.stopIt⟩ : FinalState Nat Nat) = none)
    ∧ ((finalNext (fromSliceNext [7]) (⟨0, none, none⟩ : FinalState Nat Nat)).1.err
        = none) :=
  ⟨(final_adapter_stop_err (⟨0, none, some (GoErr.cause 5)⟩ : FinalState Nat Nat)).2.2.1
      (GoErr.cause 5) rfl (by decide),
   by decide,
   ((final_adapter_stop_err (⟨0, none, none⟩ : FinalState Nat Nat)).2.2.2.2
      (fromSliceNext [7]) 1 7 rfl rfl).1⟩

/-! ### C2: monotonic termination -/

/-- Claim C2, counterexample: `Map` does not latch a failing mapping function's
error. Over the slice `[0, 1]` with a mapping that fails on `0` and
succeeds on `1`, the first pull returns an error and the second pull
succeeds again — the iterator revives, refuting the claim that every
iterator produced by the library's constructors and stages keeps
signalling the same stop once it has stopped. -/
theorem map_revives_counterexample :
    outputs (mapNext (fromSliceNext [(0 : Int), 1])
        (fun v => if v = 0 then Except.error (GoErr.cause 7) else Except.ok v)) 0 0
      = Except.error (GoErr.cause 7)
    ∧ outputs (mapNext (fromSliceNext [(0 : Int), 1])
        (fun v => if v = 0 then Except.error (GoErr.cause 7) else Except.ok v)) 0 1
      = Except.ok 1 :=
  ⟨rfl, rfl⟩

theorem fromSlice_next_error {T : Type} (S : List T) (cur : Nat) (e : GoErr) :
    (fromSliceNext S cur).2 = Except.error e ↔ S.length ≤ cur ∧ e = GoErr.stopIt := by
  unfold fromSliceNext
  by_cases h : S.length ≤ cur
  · rw [dif_pos h]
    simp [h, eq_comm]
  · rw [dif_neg h]
    simp [h]

theorem fromSlice_stuck_states {T : Type} (S : List T) (cur : Nat)
    (h : S.length ≤ cur) : ∀ k, states (fromSliceNext S) cur k = cur := by
  intro k
  induction k with
  | zero => rfl
  | succ k ih =>
    show (fromSliceNext S (states (fromSliceNext S) cur k)).1 = cur
    rw [ih]
    unfold fromSliceNext
    rw [dif_pos h]

theorem limit_stuck {σ T : Type} (f : Step σ T) (st : σ × Int) (h : st.2 ≤ 0) :
    limitNext f st = (st, Except.error GoErr.stopIt) := by
  unfold limitNext
  rw [if_pos h]

theorem limit_stuck_states {σ T : Type} (f : Step σ T) (st : σ × Int)
    (h : st.2 ≤ 0) : ∀ k, states (limitNext f) st k = st := by
  intro k
  induction k with
  | zero => rfl
  | succ k ih =>
    show (limitNext f (states (limitNext f) st k)).1 = st
    rw [ih, limit_stuck f st h]

theorem limit_error_snd {σ T : Type} (f : Step σ T) (st : σ × Int) (e : GoErr)
    (h : (limitNext f st).2 = Except.error e) : ((limitNext f st).1).2 ≤ 0 := by
  unfold limitNext at h ⊢
  by_cases hr : st.2 ≤ 0
  · rw [if_pos hr]
    exact hr
  · rw [if_neg hr] at h ⊢
    rcases hfs : f st.1 with ⟨s', r⟩
    rw [hfs] at h
    cases r with
    | ok v => simp at h
    | error e' => simp

theorem map_next_fst {σ T K : Type} (f : Step σ T) (fn : T → Except GoErr K)
    (s : σ) : (mapNext f fn s).1 = (f s).1 := by
  unfold mapNext
  rcases hfs : f s with ⟨s', r⟩
  cases r <;> simp

theorem map_states {σ T K : Type} (f : Step σ T) (fn : T → Except GoErr K)
    (s : σ) : ∀ n, states (mapNext f fn) s n = states f s n := by
  intro n
  induction n with
  | zero => rfl
  | succ n ih =>
    show (mapNext f fn (states (mapNext f fn) s n)).1 = _
    rw [ih, map_next_fst]
    rfl

theorem map_output_error {σ T K : Type} (f : Step σ T) (fn : T → Except GoErr K)
    (g : T → K) (hfn : ∀ v, fn v = Except.ok (g v)) (s : σ) (n : Nat) (e : GoErr) :
    outputs (mapNext f fn) s n = Except.error e ↔ outputs f s n = Except.error e := by
  unfold outputs
  rw [map_states]
  unfold mapNext
  rcases hfs : f (states f s n) with ⟨s', r⟩
  cases r with
  | ok v => simp [hfn v]
  | error e' => simp

/-- Claim C2, amended: (a) `FromSlice` iterators never revive and keep the same
terminal cause (`ErrStopIt`); (b) a `Limit` stage never revives, but after
a first stop of any cause every later pull reports `ErrStopIt` — the
cause is not preserved when the upstream failed; (c) a `Map` stage whose
mapping function never fails preserves the never-revive/same-cause
property of its upstream. -/
theorem stop_monotone_amended {α σ T σ' T' K : Type} :
    (∀ (S : List α), StickySame (fromSliceNext S))
    ∧ (∀ (f : Step σ T) (st : σ × Int) (n : Nat) (e : GoErr),
        outputs (limitNext f) st n = Except.error e →
        ∀ m, n < m → outputs (limitNext f) st m = Except.error GoErr.stopIt)
    ∧ (∀ (f : Step σ' T') (fn : T' → Except GoErr K) (g : T' → K),
        (∀ v, fn v = Except.ok (g v)) → StickySame f → StickySame (mapNext f fn)) := by
  refine ⟨?_, ?_, ?_⟩
  · intro S s n e h m hm
    obtain ⟨hle, he⟩ := (fromSlice_next_error S (states (fromSliceNext S) s n) e).1 h
    subst he
    have hm' : m = n + (m - n) := by omega
    rw [hm', ← outputs_shift]
    unfold outputs
    rw [fromSlice_stuck_states S _ hle (m - n)]
    exact h
  · intro f st n e h m hm
    have h0 : (states (limitNext f) st (n + 1)).2 ≤ 0 := by
      show ((limitNext f (states (limitNext f) st n)).1).2 ≤ 0
      exact limit_error_snd f _ e h
    have hm' : m = (n + 1) + (m - (n + 1)) := by omega
    rw [hm', ← outputs_shift]
    unfold outputs
    rw [limit_stuck_states f _ h0 (m - (n + 1)), limit_stuck f _ h0]
  · intro f fn g hfn hf s n e h m hm
    exact (map_output_error f fn g hfn s m e).2
      (hf s n e ((map_output_error f fn g hfn s n e).1 h) m hm)

/-- Witness for the amended C2 at concrete inputs: a drained `FromSlice`
keeps returning `ErrStopIt`; a `Limit` stage whose upstream failed with a
cause reports `ErrStopIt` on the next pull; a `Map` stage with a total
mapping over a drained upstream keeps returning `ErrStopIt`. -/
theorem stop_monotone_amended_witness :
    outputs (fromSliceNext [(3 : Int)]) 0 1 = Except.error GoErr.stopIt
    ∧ outputs (limitNext (mapNext (fromSliceNext [(0 : Int)])
        (fun _ => (Except.error (GoErr.cause 7) : Except GoErr Int)))) (0, 5) 1
      = Except.error GoErr.stopIt
    ∧ outputs (mapNext (fromSliceNext [(3 : Int)]) (fun v => Except.ok (v + 1))) 0 2
      = Except.error GoErr.stopIt :=
  ⟨(@stop_monotone_amended Int Nat Int Nat Int Int).1
      [(3 : Int)] 0 1 GoErr.stopIt rfl 1 (Nat.le_refl 1),
   (@stop_monotone_amended Int Nat Int Nat Int Int).2.1
      (mapNext (fromSliceNext [(0 : Int)])
        (fun _ => (Except.error (GoErr.cause 7) : Except GoErr Int)))
      (0, 5) 0 (GoErr.cause 7) rfl 1 (Nat.lt_succ_self 0),
   (@stop_monotone_amended Int Nat Int Nat Int Int).2.2
      (fromSliceNext [(3 : Int)]) (fun v => Except.ok (v + 1)) (fun v => v + 1)
      (fun _ => rfl) ((@stop_monotone_amended Int Nat Int Nat Int Int).1 [(3 : Int)])
      0 1 GoErr.stopIt rfl 2 (by omega)⟩

/-! ### Step lemmas for the pull functions -/

theorem runCollect_succ_ok {σ T : Type} (f : Step σ T) (fuel : Nat) (s s' : σ)
    (v : T) (h : f s = (s', Except.ok v)) :
    runCollect f (fuel + 1) s
      = (v :: (runCollect f fuel s').1, (runCollect f fuel s').2) := by
  simp only [runCollect, h]

theorem runCollect_succ_error {σ T : Type} (f : Step σ T) (fuel : Nat) (s s' : σ)
    (e : GoErr) (h : f s = (s', Except.error e)) :
    runCollect f (fuel + 1) s = ([], some e) := by
  simp only [runCollect, h]

theorem fromSliceNext_lt {T : Type} (S : List T) (cur : Nat) (h : cur < S.length) :
    fromSliceNext S cur = (cur + 1, Except.ok S[cur]) := by
  unfold fromSliceNext
  rw [dif_neg (by omega)]
  simp

theorem fromSliceNext_ge {T : Type} (S : List T) (cur : Nat) (h : S.length ≤ cur) :
    fromSliceNext S cur = (cur, Except.error GoErr.stopIt) := by
  unfold fromSliceNext
  rw [dif_pos h]

theorem limitNext_pos_ok {σ T : Type} (f : Step σ T) (st : σ × Int) (s' : σ) (v : T)
    (hr : 0 < st.2) (h : f st.1 = (s', Except.ok v)) :
    limitNext f st = ((s', st.2 - 1), Except.ok v) := by
  unfold limitNext
  rw [if_neg (by omega), h]

theorem limitNext_pos_error {σ T : Type} (f : Step σ T) (st : σ × Int) (s' : σ)
    (e : GoErr) (hr : 0 < st.2) (h : f st.1 = (s', Except.error e)) :
    limitNext f st = ((s', 0), Except.error e) := by
  unfold limitNext
  rw [if_neg (by omega), h]

theorem mapNext_ok {σ T K : Type} (f : Step σ T) (fn : T → Except GoErr K)
    (s s' : σ) (v : T) (h : f s = (s', Except.ok v)) :
    mapNext f fn s = (s', fn v) := by
  unfold mapNext
  rw [h]

theorem mapNext_error {σ T K : Type} (f : Step σ T) (fn : T → Except GoErr K)
    (s s' : σ) (e : GoErr) (h : f s = (s', Except.error e)) :
    mapNext f fn s = (s', Except.error e) := by
  unfold mapNext
  rw [h]

/-! ### C3: Limit over FromSlice -/

theorem runCollect_limit_fromSlice {α : Type} (S : List α) :
    ∀ (fuel cur : Nat) (N : Int),
      min N.toNat (S.length - cur) + 1 ≤ fuel →
      runCollect (limitNext (fromSliceNext S)) fuel (cur, N)
        = ((S.drop cur).take N.toNat, some GoErr.stopIt) := by
  intro fuel
  induction fuel with
  | zero => intro cur N h; omega
  | succ fuel ih =>
    intro cur N h
    by_cases hN : N ≤ 0
    · rw [runCollect_succ_error _ fuel _ (cur, N) GoErr.stopIt
        (limit_stuck (fromSliceNext S) (cur, N) hN)]
      rw [show N.toNat = 0 by omega]
      simp
    · by_cases hc : S.length ≤ cur
      · rw [runCollect_succ_error _ fuel _ _ _
          (limitNext_pos_error (fromSliceNext S) (cur, N) cur GoErr.stopIt
            (by omega) (fromSliceNext_ge S cur hc))]
        rw [List.drop_eq_nil_of_le hc]
        simp
      · push_neg at hc
        rw [runCollect_succ_ok _ fuel _ _ _
          (limitNext_pos_ok (fromSliceNext S) (cur, N) (cur + 1) S[cur]
            (by omega) (fromSliceNext_lt S cur hc))]
        rw [ih (cur + 1) (N - 1) (by omega)]
        rw [List.drop_eq_getElem_cons hc, show N.toNat = (N - 1).toNat + 1 by omega,
          List.take_succ_cons]

theorem limit_fromSlice_states {α : Type} (S : List α) (N : Int) :
    ∀ k, k ≤ min N.toNat S.length →
      states (limitNext (fromSliceNext S)) (0, N) k = (k, N - k) := by
  intro k
  induction k with
  | zero => intro _; simp [states]
  | succ k ih =>
    intro hk
    show (limitNext (fromSliceNext S) (states (limitNext (fromSliceNext S)) (0, N) k)).1
      = _
    rw [ih (by omega)]
    rw [limitNext_pos_ok (fromSliceNext S) (k, N - k) (k + 1) S[k]
      (by simp; omega) (fromSliceNext_lt S k (by omega))]
    rw [Prod.mk.injEq]
    exact ⟨rfl, by push_cast; ring⟩

/-- Claim C3: for every slice S and every Go `int` N (negative included),
collecting `Limit(FromSlice(S), N)` succeeds and yields the first
`min(max(N,0), len(S))` elements of S in order, and from that point on
every further pull of the limit iterator returns `ErrStopIt`. -/
theorem limit_fromSlice_collect {α : Type} (S : List α) (N : Int) :
    toSliceGo (limitNext (fromSliceNext S)) (min N.toNat S.length + 1) (0, N)
      = some (S.take (min N.toNat S.length), none)
    ∧ ∀ m, min N.toNat S.length ≤ m →
        outputs (limitNext (fromSliceNext S)) (0, N) m = Except.error GoErr.stopIt := by
  constructor
  · unfold toSliceGo
    rw [runCollect_limit_fromSlice S (min N.toNat S.length + 1) 0 N (by omega)]
    rw [List.drop_zero]
    by_cases hs : N.toNat ≤ S.length
    · rw [min_eq_left hs]
    · rw [min_eq_right (by omega), List.take_of_length_le (by omega),
        List.take_length]
  · intro m hm
    have hst := limit_fromSlice_states S N (min N.toNat S.length) (Nat.le_refl _)
    by_cases hend : N - min N.toNat S.length ≤ 0
    · rw [show m = min N.toNat S.length + (m - min N.toNat S.length) by omega,
        ← outputs_shift, hst]
      unfold outputs
      rw [limit_stuck_states (fromSliceNext S) _ hend, limit_stuck _ _ hend]
    · have hμ : min N.toNat S.length = S.length := by omega
      have hstep := limitNext_pos_error (fromSliceNext S)
        ((S.length : Nat), N - S.length) S.length GoErr.stopIt (by simp; omega)
        (fromSliceNext_ge S S.length (Nat.le_refl _))
      rcases Nat.eq_or_lt_of_le hm with heq | hlt
      · unfold outputs
        rw [← heq, hst, hμ, hstep]
      · have hst1 : states (limitNext (fromSliceNext S)) (0, N)
            (min N.toNat S.length + 1) = (S.length, 0) := by
          show (limitNext (fromSliceNext S)
            (states (limitNext (fromSliceNext S)) (0, N) (min N.toNat S.length))).1 = _
          rw [hst, hμ, hstep]
        rw [show m = (min N.toNat S.length + 1) + (m - min N.toNat S.length - 1)
            by omega, ← outputs_shift, hst1]
        unfold outputs
        rw [limit_stuck_states (fromSliceNext S) _ (by simp),
          limit_stuck _ _ (by simp)]

/-- Witness for C3 at S = [10,20,30]: N = 2 collects the prefix [10,20],
N = -5 collects nothing, N = 7 collects all of S; afterwards the pulls
keep returning `ErrStopIt`. -/
theorem limit_fromSlice_collect_witness :
    toSliceGo (limitNext (fromSliceNext [10, 20, 30])) 3 (0, (2 : Int))
      = some ([10, 20], none)
    ∧ toSliceGo (limitNext (fromSliceNext [10, 20, 30])) 1 (0, (-5 : Int))
      = some ([], none)
    ∧ toSliceGo (limitNext (fromSliceNext [10, 20, 30])) 4 (0, (7 : Int))
      = some ([10, 20, 30], none)
    ∧ outputs (limitNext (fromSliceNext [10, 20, 30])) (0, (2 : Int)) 5
      = Except.error GoErr.stopIt :=
  ⟨(limit_fromSlice_collect [10, 20, 30] 2).1,
   (limit_fromSlice_collect [10, 20, 30] (-5)).1,
   (limit_fromSlice_collect [10, 20, 30] 7).1,
   (limit_fromSlice_collect [10, 20, 30] 2).2 5 (by decide)⟩

/-! ### C6: Map over FromSlice -/

theorem runCollect_map_fromSlice {α β : Type} [Inhabited α] (S : List α)
    (M : α → Except GoErr β) (g : α → β) (j : Nat) (hj : j ≤ S.length)
    (hok : ∀ i, i < j → M (S.getD i default) = Except.ok (g (S.getD i default)))
    (hstop : j = S.length
      ∨ (j < S.length ∧ M (S.getD j default) = Except.error GoErr.stopIt)) :
    ∀ (fuel cur : Nat), cur ≤ j → j - cur + 1 ≤ fuel →
      runCollect (mapNext (fromSliceNext S) M) fuel cur
        = (((S.drop cur).take (j - cur)).map g, some GoErr.stopIt) := by
  intro fuel
  induction fuel with
  | zero => intro cur hcur hfuel; omega
  | succ fuel ih =>
    intro cur hcur hfuel
    rcases Nat.eq_or_lt_of_le hcur with heq | hlt
    · subst heq
      rcases hstop with hend | ⟨hjlt, hMstop⟩
      · rw [runCollect_succ_error _ fuel _ _ _
          (mapNext_error (fromSliceNext S) M cur cur GoErr.stopIt
            (fromSliceNext_ge S cur (by omega)))]
        simp
      · have hstep : mapNext (fromSliceNext S) M cur
            = (cur + 1, Except.error GoErr.stopIt) := by
          rw [mapNext_ok (fromSliceNext S) M cur (cur + 1) (S.get ⟨cur, hjlt⟩)
            (by rw [fromSliceNext_lt S cur hjlt]; simp),
            show S.get ⟨cur, hjlt⟩ = S.getD cur default from
              (List.getD_eq_getElem S default hjlt).symm,
            hMstop]
        rw [runCollect_succ_error _ fuel _ _ _ hstep]
        simp
    · have hcl : cur < S.length := by omega
      have hstep : mapNext (fromSliceNext S) M cur
          = (cur + 1, Except.ok (g (S.getD cur default))) := by
        rw [mapNext_ok (fromSliceNext S) M cur (cur + 1) (S.get ⟨cur, hcl⟩)
          (by rw [fromSliceNext_lt S cur hcl]; simp),
          show S.get ⟨cur, hcl⟩ = S.getD cur default from
            (List.getD_eq_getElem S default hcl).symm,
          hok cur hlt]
      rw [runCollect_succ_ok _ fuel _ _ _ hstep]
      rw [ih (cur + 1) (by omega) (by omega)]
      rw [List.drop_eq_getElem_cons hcl, show j - cur = (j - (cur + 1)) + 1 by omega,
        List.take_succ_cons, List.map_cons,
        show S[cur] = S.getD cur default from (List.getD_eq_getElem S default hcl).symm]

/-- Claim C6: collecting `Map(FromSlice(S), M)` with a mapping that never fails
yields the element-wise image of S in order; and when the mapping signals
`ErrStopIt` at position j (and succeeds before), the collect succeeds —
exactly like natural exhaustion — yielding the first j transformed
elements. -/
theorem map_fromSlice_collect {α β : Type} [Inhabited α] (S : List α) :
    (∀ (g : α → β),
      toSliceGo (mapNext (fromSliceNext S) (fun v => Except.ok (g v)))
          (S.length + 1) 0
        = some (S.map g, none))
    ∧ (∀ (M : α → Except GoErr β) (g : α → β) (j : Nat), j < S.length →
        (∀ i, i < j → M (S.getD i default) = Except.ok (g (S.getD i default))) →
        M (S.getD j default) = Except.error GoErr.stopIt →
        toSliceGo (mapNext (fromSliceNext S) M) (S.length + 1) 0
          = some ((S.take j).map g, none)) := by
  constructor
  · intro g
    unfold toSliceGo
    rw [runCollect_map_fromSlice S (fun v => Except.ok (g v)) g S.length
      (Nat.le_refl _) (fun i _ => rfl) (Or.inl rfl) (S.length + 1) 0
      (by omega) (by omega)]
    rw [List.drop_zero]
    simp
  · intro M g j hj hok hstop
    unfold toSliceGo
    rw [runCollect_map_fromSlice S M g j (by omega) hok (Or.inr ⟨hj, hstop⟩)
      (S.length + 1) 0 (by omega) (by omega)]
    rw [List.drop_zero]
    simp

/-- Witness for C6 at S = [1,2,3]: a total mapping multiplies by 10; a
mapping that signals `ErrStopIt` on the value 3 (position 2) yields the
first two transformed elements with no error. -/
theorem map_fromSlice_collect_witness :
    toSliceGo (mapNext (fromSliceNext [1, 2, 3])
        (fun v => Except.ok (v * 10))) 4 0
      = some ([10, 20, 30], none)
    ∧ toSliceGo (mapNext (fromSliceNext [1, 2, 3])
        (fun v => if v = 3 then Except.error GoErr.stopIt else Except.ok (v * 10))) 4 0
      = some ([10, 20], none) := by
  constructor
  · exact (map_fromSlice_collect [1, 2, 3]).1 (fun v => v * 10)
  · exact (map_fromSlice_collect [1, 2, 3]).2
      (fun v => if v = 3 then Except.error GoErr.stopIt else Except.ok (v * 10))
      (fun v => v * 10) 2 (by decide) (by decide) (by decide)

/-! ### C8: Pairs -/

theorem pairsNext_left_error {σ₁ σ₂ T K : Type} (fl : Step σ₁ T) (fr : Step σ₂ K)
    (sl : σ₁) (sr : σ₂) (sl' : σ₁) (e : GoErr) (h : fl sl = (sl', Except.error e)) :
    pairsNext fl fr (sl, sr) = ((sl', sr), Except.error e) := by
  simp only [pairsNext, h]

theorem pairsNext_right_error {σ₁ σ₂ T K : Type} (fl : Step σ₁ T) (fr : Step σ₂ K)
    (sl : σ₁) (sr : σ₂) (sl' : σ₁) (v : T) (sr' : σ₂) (e : GoErr)
    (hl : fl sl = (sl', Except.ok v)) (hr : fr sr = (sr', Except.error e)) :
    pairsNext fl fr (sl, sr) = ((sl', sr'), Except.error e) := by
  simp only [pairsNext, hl, hr]

theorem pairsNext_ok {σ₁ σ₂ T K : Type} (fl : Step σ₁ T) (fr : Step σ₂ K)
    (sl : σ₁) (sr : σ₂) (sl' : σ₁) (v : T) (sr' : σ₂) (w : K)
    (hl : fl sl = (sl', Except.ok v)) (hr : fr sr = (sr', Except.ok w)) :
    pairsNext fl fr (sl, sr) = ((sl', sr'), Except.ok (v, w)) := by
  simp only [pairsNext, hl, hr]

theorem runCollect_pairs_fromSlice {α β : Type} (A : List α) (B : List β) :
    ∀ (fuel k : Nat), min (A.length - k) (B.length - k) + 1 ≤ fuel →
      runCollect (pairsNext (fromSliceNext A) (fromSliceNext B)) fuel (k, k)
        = ((A.drop k).zip (B.drop k), some GoErr.stopIt) := by
  intro fuel
  induction fuel with
  | zero => intro k h; omega
  | succ fuel ih =>
    intro k h
    by_cases hA : A.length ≤ k
    · rw [runCollect_succ_error _ fuel _ _ _
        (pairsNext_left_error (fromSliceNext A) (fromSliceNext B) k k k
          GoErr.stopIt (fromSliceNext_ge A k hA))]
      rw [List.drop_eq_nil_of_le hA]
      simp
    · push_neg at hA
      by_cases hB : B.length ≤ k
      · rw [runCollect_succ_error _ fuel _ _ _
          (pairsNext_right_error (fromSliceNext A) (fromSliceNext B) k k (k + 1)
            A[k] k GoErr.stopIt (fromSliceNext_lt A k hA) (fromSliceNext_ge B k hB))]
        rw [List.drop_eq_nil_of_le hB]
        simp
      · push_neg at hB
        rw [runCollect_succ_ok _ fuel _ _ _
          (pairsNext_ok (fromSliceNext A) (fromSliceNext B) k k (k + 1)
            A[k] (k + 1) B[k] (fromSliceNext_lt A k hA) (fromSliceNext_lt B k hB))]
        rw [ih (k + 1) (by omega)]
        rw [List.drop_eq_getElem_cons hA, List.drop_eq_getElem_cons hB,
          List.zip_cons_cons]

/-- Claim C8: collecting `Pairs(FromSlice(A), FromSlice(B))` yields exactly the
pairs `(A[i], B[i])` for `i` below the shorter length — `A.zip B`;
moreover one pull of the stage stops as soon as a side stops, propagating
that side's signal: a left stop is returned without pulling the right
source at all (the left side is checked first), and a right stop after a
left success is returned with the left source already advanced. -/
theorem pairs_fromSlice_collect {α β σ₁ σ₂ T K : Type} (A : List α) (B : List β) :
    toSliceGo (pairsNext (fromSliceNext A) (fromSliceNext B))
        (min A.length B.length + 1) (0, 0)
      = some (A.zip B, none)
    ∧ (∀ (fl : Step σ₁ T) (fr : Step σ₂ K) (sl : σ₁) (sr : σ₂) (sl' : σ₁) (e : GoErr),
        fl sl = (sl', Except.error e) →
        pairsNext fl fr (sl, sr) = ((sl', sr), Except.error e))
    ∧ (∀ (fl : Step σ₁ T) (fr : Step σ₂ K) (sl : σ₁) (sr : σ₂) (sl' : σ₁) (v : T)
        (sr' : σ₂) (e : GoErr),
        fl sl = (sl', Except.ok v) → fr sr = (sr', Except.error e) →
        pairsNext fl fr (sl, sr) = ((sl', sr'), Except.error e)) := by
  refine ⟨?_, ?_, ?_⟩
  · unfold toSliceGo
    rw [runCollect_pairs_fromSlice A B (min A.length B.length + 1) 0 (by omega)]
    rw [List.drop_zero, List.drop_zero]
  · intro fl fr sl sr sl' e h
    exact pairsNext_left_error fl fr sl sr sl' e h
  · intro fl fr sl sr sl' v sr' e hl hr
    exact pairsNext_right_error fl fr sl sr sl' v sr' e hl hr

/-- Witness for C8: `[1,2,3]` zipped with `["a","b"]` collects to two
pairs; a stopped left source propagates its signal without consulting the
right; a right stop after a left success propagates with the left
advanced. -/
theorem pairs_fromSlice_collect_witness :
    toSliceGo (pairsNext (fromSliceNext [1, 2, 3]) (fromSliceNext [GoErr.stopIt]))
        2 (0, 0)
      = some ([(1, GoErr.stopIt)], none)
    ∧ pairsNext (fromSliceNext [1, 2, 3]) (fromSliceNext [GoErr.stopIt]) (3, 0)
      = ((3, 0), Except.error GoErr.stopIt)
    ∧ pairsNext (fromSliceNext [1, 2, 3]) (fromSliceNext [GoErr.stopIt]) (1, 1)
      = ((2, 1), Except.error GoErr.stopIt) := by
  refine ⟨?_, ?_, ?_⟩
  · exact (@pairs_fromSlice_collect Nat GoErr Nat Nat Nat Nat
      [1, 2, 3] [GoErr.stopIt]).1
  · exact (@pairs_fromSlice_collect Nat GoErr Nat Nat Nat GoErr
      [1, 2, 3] [GoErr.stopIt]).2.1 (fromSliceNext [1, 2, 3])
      (fromSliceNext [GoErr.stopIt]) 3 0 3 GoErr.stopIt (by decide)
  · exact (@pairs_fromSlice_collect Nat GoErr Nat Nat Nat GoErr
      [1, 2, 3] [GoErr.stopIt]).2.2 (fromSliceNext [1, 2, 3])
      (fromSliceNext [GoErr.stopIt]) 1 1 2 2 1 GoErr.stopIt (by decide) (by decide)

/-! ### C4: Combine -/

theorem combineNext_of_ne_nil {σ T : Type} (fs : List (Step σ T)) (ss : List σ)
    (h : fs ≠ []) : combineNext fs ss = combineLoop fs ss := by
  unfold combineNext
  rw [if_neg (by simpa using h)]

theorem minLen_spec {α : Type} (Ss : List (List α)) :
    Ss = [] ∨ ((∀ S ∈ Ss, minLen Ss ≤ S.length) ∧ ∃ S ∈ Ss, S.length = minLen Ss) := by
  induction Ss with
  | nil => exact Or.inl rfl
  | cons S rest ih =>
    right
    rcases ih with hnil | ⟨hall, S2, hS2, hlen⟩
    · subst hnil
      constructor
      · intro S2 hS2
        rcases List.mem_cons.mp hS2 with h2 | h2
        · subst h2
          simp [minLen]
        · simp at h2
      · exact ⟨S, by simp, by simp [minLen]⟩
    · have hne : rest ≠ [] := by
        intro hc
        subst hc
        simp at hS2
      have hmin : minLen (S :: rest) = min S.length (minLen rest) := by
        rcases rest with _ | ⟨S4, rest4⟩
        · exact absurd rfl hne
        · rfl
      constructor
      · intro S3 hS3
        rcases List.mem_cons.mp hS3 with h3 | h3
        · subst h3
          rw [hmin]
          omega
        · have := hall S3 h3
          rw [hmin]
          omega
      · by_cases hcase : S.length ≤ minLen rest
        · exact ⟨S, by simp, by rw [hmin]; omega⟩
        · exact ⟨S2, by simp [hS2], by rw [hmin]; omega⟩

theorem minLen_lt_all {α : Type} (Ss : List (List α)) (j : Nat)
    (h : j < minLen Ss) : ∀ S ∈ Ss, j < S.length := by
  intro S hS
  rcases minLen_spec Ss with hnil | ⟨hall, _⟩
  · subst hnil
    simp at hS
  · have := hall S hS
    omega

theorem minLen_exists_le {α : Type} (Ss : List (List α)) (hne : Ss ≠ []) :
    ∃ S ∈ Ss, S.length ≤ minLen Ss := by
  rcases minLen_spec Ss with hnil | ⟨_, S, hS, hlen⟩
  · exact absurd hnil hne
  · exact ⟨S, hS, hlen.le⟩

theorem combineLoop_round_ok {α : Type} [Inhabited α] (Ss : List (List α)) (k : Nat)
    (h : ∀ S ∈ Ss, k < S.length) :
    combineLoop (Ss.map fromSliceNext) (Ss.map fun _ => k)
      = (Ss.map fun _ => k + 1, Except.ok (Ss.map fun S => S.getD k default)) := by
  induction Ss with
  | nil => rfl
  | cons S rest ih =>
    have hS : k < S.length := h S (by simp)
    have hstep : fromSliceNext S k = (k + 1, Except.ok (S.getD k default)) := by
      rw [fromSliceNext_lt S k hS, List.getD_eq_getElem S default hS]
    simp only [List.map_cons, combineLoop, hstep,
      ih (fun S2 hS2 => h S2 (List.mem_cons_of_mem S hS2))]

theorem combineLoop_round_stop {α : Type} (Ss : List (List α)) (k : Nat)
    (h : ∃ S ∈ Ss, S.length ≤ k) :
    (combineLoop (Ss.map fromSliceNext) (Ss.map fun _ => k)).2
      = Except.error GoErr.stopIt := by
  induction Ss with
  | nil =>
    obtain ⟨S, hS, _⟩ := h
    simp at hS
  | cons S rest ih =>
    by_cases hS : S.length ≤ k
    · simp only [List.map_cons, combineLoop, fromSliceNext_ge S k hS]
    · have hex : ∃ S2 ∈ rest, S2.length ≤ k := by
        obtain ⟨S2, hS2, hle⟩ := h
        rcases List.mem_cons.mp hS2 with h2 | h2
        · subst h2
          exact absurd hle hS
        · exact ⟨S2, h2, hle⟩
      have hklt : k < S.length := by omega
      have hstep := fromSliceNext_lt S k hklt
      rcases hloop : combineLoop (rest.map fromSliceNext) (rest.map fun _ => k)
        with ⟨ss2, r⟩
      have hr : r = Except.error GoErr.stopIt := by
        have h2 := ih hex
        rw [hloop] at h2
        exact h2
      subst hr
      simp only [List.map_cons, combineLoop, hstep, hloop]

theorem runCollect_combine_fromSlice {α : Type} [Inhabited α] (Ss : List (List α))
    (hne : Ss ≠ []) :
    ∀ (fuel j : Nat), minLen Ss - j + 1 ≤ fuel →
      runCollect (combineNext (Ss.map fromSliceNext)) fuel (Ss.map fun _ => j)
        = ((List.range' j (minLen Ss - j)).map
            (fun i => Ss.map fun S => S.getD i default), some GoErr.stopIt) := by
  have hfs : Ss.map fromSliceNext ≠ ([] : List (Step Nat α)) := by
    simpa using hne
  intro fuel
  induction fuel with
  | zero => intro j h; omega
  | succ fuel ih =>
    intro j h
    by_cases hj : j < minLen Ss
    · have hstep : combineNext (Ss.map fromSliceNext) (Ss.map fun _ => j)
          = (Ss.map fun _ => j + 1, Except.ok (Ss.map fun S => S.getD j default)) := by
        rw [combineNext_of_ne_nil _ _ hfs]
        exact combineLoop_round_ok Ss j (minLen_lt_all Ss j hj)
      rw [runCollect_succ_ok _ fuel _ _ _ hstep]
      rw [ih (j + 1) (by omega)]
      rw [show minLen Ss - j = (minLen Ss - (j + 1)) + 1 by omega,
        List.range'_succ, List.map_cons]
    · have hex : ∃ S ∈ Ss, S.length ≤ j := by
        obtain ⟨S, hS, hle⟩ := minLen_exists_le Ss hne
        exact ⟨S, hS, by omega⟩
      rcases hloop : combineLoop (Ss.map fromSliceNext) (Ss.map fun _ => j)
        with ⟨ss2, r⟩
      have hr : r = Except.error GoErr.stopIt := by
        have h2 := combineLoop_round_stop Ss j hex
        rw [hloop] at h2
        exact h2
      subst hr
      have hstep : combineNext (Ss.map fromSliceNext) (Ss.map fun _ => j)
          = (ss2, Except.error GoErr.stopIt) := by
        rw [combineNext_of_ne_nil _ _ hfs, hloop]
      rw [runCollect_succ_error _ fuel _ _ _ hstep]
      rw [show minLen Ss - j = 0 by omega]
      simp

/-- Claim C4: collecting `Combine(FromSlice(S1), ..., FromSlice(Sn))` yields
exactly the rounds `[S1[i], ..., Sn[i]]` for every i below the length of
the shortest source, stopping with `ErrStopIt` as soon as any source
stops; zero sources yield an immediate `ErrStopIt`, hence an empty
collected result. -/
theorem combine_fromSlice_collect {α : Type} [Inhabited α] (Ss : List (List α)) :
    toSliceGo (combineNext (Ss.map fromSliceNext)) (minLen Ss + 1)
        (Ss.map fun _ => 0)
      = some ((List.range (minLen Ss)).map
          (fun i => Ss.map fun S => S.getD i default), none) := by
  rcases hSs : Ss with _ | ⟨S, rest⟩
  · rfl
  · rw [← hSs]
    have hne : Ss ≠ [] := by rw [hSs]; simp
    unfold toSliceGo
    rw [runCollect_combine_fromSlice Ss hne (minLen Ss + 1) 0 (by omega)]
    rw [List.range_eq_range' (minLen Ss)]
    simp

/-! ### C5: Sequence with wraparound -/

theorem wrap64_add (a b : Int) : wrap64 (wrap64 a + b) = wrap64 (a + b) := by
  unfold wrap64
  omega

theorem seq_states (start step : Int) :
    ∀ n : Nat, states (seqNext step) (sequenceInit start step) n
      = wrap64 (start + ((n : Int) - 1) * step) := by
  intro n
  induction n with
  | zero =>
    show sequenceInit start step = _
    unfold sequenceInit
    congr 1
    push_cast
    ring
  | succ n ih =>
    show (seqNext step (states (seqNext step) (sequenceInit start step) n)).1 = _
    rw [ih]
    show wrap64 (wrap64 (start + ((n : Int) - 1) * step) + step) = _
    rw [wrap64_add]
    congr 1
    push_cast
    ring

/-- Claim C5: `Sequence(start, step)` yields `start` first and then keeps adding
`step` with 64-bit wraparound: the n-th pull returns
`wrap64(start + n * step)` for every machine-representable start and
step (zero and negative steps included); concretely, `Sequence(0, 1)`
limited to 6 collects `[0,1,2,3,4,5]` and `Sequence(maxInt, 1)` limited
to 3 collects `[maxInt, minInt, minInt+1]`. -/
theorem sequence_wraparound :
    (∀ (start step : Int), minInt ≤ start → start ≤ maxInt →
      (∀ n : Nat, outputs (seqNext step) (sequenceInit start step) n
          = Except.ok (wrap64 (start + (n : Int) * step)))
      ∧ outputs (seqNext step) (sequenceInit start step) 0 = Except.ok start)
    ∧ toSliceGo (limitNext (seqNext 1)) 7 (sequenceInit 0 1, 6)
      = some ([0, 1, 2, 3, 4, 5], none)
    ∧ toSliceGo (limitNext (seqNext 1)) 4 (sequenceInit maxInt 1, 3)
      = some ([maxInt, minInt, minInt + 1], none) := by
  refine ⟨?_, by decide, by decide⟩
  intro start step h1 h2
  have hout : ∀ n : Nat, outputs (seqNext step) (sequenceInit start step) n
      = Except.ok (wrap64 (start + (n : Int) * step)) := by
    intro n
    show (seqNext step (states (seqNext step) (sequenceInit start step) n)).2 = _
    rw [seq_states]
    show Except.ok (wrap64 (wrap64 (start + ((n : Int) - 1) * step) + step)) = _
    rw [wrap64_add]
    congr 2
    ring
  refine ⟨hout, ?_⟩
  rw [hout 0]
  congr 1
  show wrap64 (start + 0 * step) = start
  unfold wrap64 maxInt at *
  unfold minInt at h1
  omega

/-- Witness for C5: `Sequence(5, 3)` starts at 5. -/
theorem sequence_wraparound_witness :
    outputs (seqNext 3) (sequenceInit 5 3) 0 = Except.ok 5 :=
  (sequence_wraparound.1 5 3 (by decide) (by decide)).2

/-! ### C1: FromSliceSafe under concurrency -/

theorem safeRun_cons_none {α : Type} [Inhabited α] (S : List α) (s s' : SafeState)
    (ev : SafeEv) (evs : List SafeEv) (h : safeStep S s ev = (s', none)) :
    safeRun S (ev :: evs) s = safeRun S evs s' := by
  simp only [safeRun, h]

theorem safeRun_cons_some_snd {α : Type} [Inhabited α] (S : List α)
    (s s' : SafeState) (v : α) (ev : SafeEv) (evs : List SafeEv)
    (h : safeStep S s ev = (s', some v)) :
    (safeRun S (ev :: evs) s).2 = v :: (safeRun S evs s').2 := by
  simp only [safeRun, h]

theorem countPulls_cons_pull (evs : List SafeEv) :
    countPulls (SafeEv.pull :: evs) = countPulls evs + 1 := by
  unfold countPulls
  rw [List.countP_cons]
  simp

theorem countPulls_cons_store (evs : List SafeEv) :
    countPulls (SafeEv.store :: evs) = countPulls evs := by
  unfold countPulls
  rw [List.countP_cons]
  simp

theorem safeRunDelivers {α : Type} [Inhabited α] (S : List α) :
    ∀ (evs : List SafeEv) (s : SafeState) (k : Nat),
      k ≤ S.length →
      ((s.counter < (S.length : Int)) → (s.counter = (k : Int) ∧ s.pending = 0)) →
      (((S.length : Int) ≤ s.counter) → k = S.length) →
      (safeRun S evs s).2
        = (S.drop k).take (min (countPulls evs) (S.length - k)) := by
  intro evs
  induction evs with
  | nil =>
    intro s k h1 h2 h3
    simp [safeRun, countPulls]
  | cons ev evs ih =>
    intro s k h1 h2 h3
    cases ev with
    | pull =>
      rw [countPulls_cons_pull]
      by_cases hc : (S.length : Int) ≤ s.counter
      · have hk := h3 hc
        have hstep : safeStep S s SafeEv.pull
            = ({ counter := s.counter + 1, pending := s.pending + 1 }, none) := by
          unfold safeStep
          rw [if_pos hc]
        rw [safeRun_cons_none S s _ _ evs hstep]
        rw [ih _ k h1 (by intro hcc; exact absurd hcc (by simp at hcc ⊢; omega))
          (fun _ => hk)]
        subst hk
        rw [List.drop_length]
        simp
      · push_neg at hc
        obtain ⟨hcounter, hpending⟩ := h2 hc
        have hklt : k < S.length := by omega
        have hstep : safeStep S s SafeEv.pull
            = ({ counter := s.counter + 1, pending := s.pending },
               some (S.getD k default)) := by
          unfold safeStep
          rw [if_neg (by omega)]
          rw [show s.counter.toNat = k by omega]
        rw [safeRun_cons_some_snd S s _ _ _ evs hstep]
        rw [ih _ (k + 1) (by omega)
          (by intro _; constructor
              · simp only [hcounter]; push_cast; ring
              · exact hpending)
          (by intro hcc; simp at hcc; omega)]
        rw [List.drop_eq_getElem_cons hklt,
          show min (countPulls evs + 1) (S.length - k)
            = min (countPulls evs) (S.length - (k + 1)) + 1 by omega,
          List.take_succ_cons, List.getD_eq_getElem S default hklt]
    | store =>
      rw [countPulls_cons_store]
      rcases hp : s.pending with _ | p
      · have hstep : safeStep S s SafeEv.store = (s, none) := by
          unfold safeStep
          rw [hp]
        rw [safeRun_cons_none S s _ _ evs hstep]
        exact ih _ k h1 h2 h3
      · have hcge : (S.length : Int) ≤ s.counter := by
          by_contra hcc
          push_neg at hcc
          obtain ⟨_, hpend0⟩ := h2 hcc
          rw [hp] at hpend0
          cases hpend0
        have hk := h3 hcge
        have hstep : safeStep S s SafeEv.store
            = ({ counter := (S.length : Int), pending := p }, none) := by
          unfold safeStep
          rw [hp]
        rw [safeRun_cons_none S s _ _ evs hstep]
        exact ih _ k h1 (by intro hcc; exact absurd hcc (by simp))
          (fun _ => hk)

/-- Claim C1: over any interleaving of atomic pull/store events by any number of
racing workers, `FromSliceSafe(S)` delivers exactly the prefix of S of
length `min(pulls, len(S))` — in particular, as soon as the workers have
made at least `len(S)` pulls in total (each worker pulling until stopped
guarantees this), exactly `len(S)` successful pulls occur, and the values
delivered are exactly the elements of S, with no duplicate and no
omission. -/
theorem fromSliceSafe_exactly_once {α : Type} [Inhabited α] (S : List α)
    (evs : List SafeEv) :
    (safeRun S evs ⟨0, 0⟩).2 = S.take (min (countPulls evs) S.length)
    ∧ (S.length ≤ countPulls evs →
        (safeRun S evs ⟨0, 0⟩).2 = S
        ∧ (safeRun S evs ⟨0, 0⟩).2.length = S.length) := by
  have h := safeRunDelivers S evs ⟨0, 0⟩ 0 (by omega)
    (by intro _; exact ⟨rfl, rfl⟩)
    (by intro hc; have hc2 : (S.length : Int) ≤ 0 := hc; omega)
  rw [List.drop_zero, Nat.sub_zero] at h
  constructor
  · rw [h]
  · intro hge
    have hS : (safeRun S evs ⟨0, 0⟩).2 = S := by
      rw [h, show min (countPulls evs) S.length = S.length by omega,
        List.take_length]
    exact ⟨hS, by rw [hS]⟩

/-- Witness for C1: three values, two workers interleaving four pulls, a
deferred store and one more pull; all three values are delivered exactly
once. -/
theorem fromSliceSafe_exactly_once_witness :
    (safeRun [10, 20, 30]
        [SafeEv.pull, SafeEv.pull, SafeEv.pull, SafeEv.pull, SafeEv.store,
         SafeEv.pull] ⟨0, 0⟩).2 = [10, 20, 30]
    ∧ countPulls [SafeEv.pull, SafeEv.pull, SafeEv.pull, SafeEv.pull,
        SafeEv.store, SafeEv.pull] = 5 :=
  ⟨((fromSliceSafe_exactly_once [10, 20, 30]
      [SafeEv.pull, SafeEv.pull, SafeEv.pull, SafeEv.pull, SafeEv.store,
       SafeEv.pull]).2 (by decide)).1,
   by decide⟩

end Iter
